import Mathlib

/-!
# Verification of the bounded file-upload pipeline

Shallow embedding of `app/routers/file_uploads.py`: the filename sanitizer,
extension/MIME validator, unique destination namer, bounded streaming writer,
and the retrieval/deletion guards, together with proofs of the specification's
testable properties.

Modelling conventions:
* strings are processed as `List Char` with structural recursion so that every
  definition evaluates by kernel reduction;
* the file system is a map `String → Option (List Nat)` from absolute path
  strings to file contents (a byte is a `Nat`); directories are not entries of
  the map;
* `Path.resolve()` is modelled lexically (the storage volume is assumed free of
  symlinks), processing `.` and `..` components;
* `uuid4().hex` values are passed in as explicit `token`/`hex` arguments,
  assumed to consist of lowercase hexadecimal digits.
-/

namespace FileUploads

/-- Characters kept by the sanitizer's regular expression `[^a-zA-Z0-9._-]`
(`_sanitize_filename`, `re.sub` keeps exactly the complement). -/
def allowedChar (c : Char) : Bool :=
  c.isAlpha || c.isDigit || c == '.' || c == '_' || c == '-'

/-- Characters stripped by Python's `str.strip()` (the `str.isspace` set). -/
def isPySpace (c : Char) : Bool :=
  c == ' ' || c == '\t' || c == '\n' || c == (Char.ofNat 11) || c == (Char.ofNat 12) ||
  c == '\r' || c == (Char.ofNat 28) || c == (Char.ofNat 29) || c == (Char.ofNat 30) ||
  c == (Char.ofNat 31) || c == (Char.ofNat 133) || c == (Char.ofNat 160) ||
  c == (Char.ofNat 5760) || c == (Char.ofNat 8192) || c == (Char.ofNat 8193) ||
  c == (Char.ofNat 8194) || c == (Char.ofNat 8195) || c == (Char.ofNat 8196) ||
  c == (Char.ofNat 8197) || c == (Char.ofNat 8198) || c == (Char.ofNat 8199) ||
  c == (Char.ofNat 8200) || c == (Char.ofNat 8201) || c == (Char.ofNat 8202) ||
  c == (Char.ofNat 8232) || c == (Char.ofNat 8233) || c == (Char.ofNat 8239) ||
  c == (Char.ofNat 8287) || c == (Char.ofNat 12288)

/-- Lowercase hexadecimal digit, the alphabet of `uuid4().hex`. -/
def isHexLowerChar (c : Char) : Bool :=
  c.isDigit || ('a' ≤ c && c ≤ 'f')

/-- All characters of the string are lowercase hex digits (shape of
`uuid4().hex`; we do not need its exact length). -/
def hexOk (s : String) : Bool := s.data.all isHexLowerChar

/-- Python `str.strip()`: drop leading and trailing whitespace. -/
def pyStrip (cs : List Char) : List Char :=
  ((cs.dropWhile isPySpace).reverse.dropWhile isPySpace).reverse

/-- Split a character list on a separator, keeping empty segments
(the component structure used by `PurePosixPath`). -/
def splitOnChar (sep : Char) : List Char → List (List Char)
  | [] => [[]]
  | c :: cs =>
    if c = sep then [] :: splitOnChar sep cs
    else
      match splitOnChar sep cs with
      | [] => [[c]]
      | g :: gs => (c :: g) :: gs

/-- Index of the last occurrence of a character (Python `str.rfind`). -/
def lastIdxOf (c : Char) : List Char → Option Nat
  | [] => none
  | a :: as =>
    match lastIdxOf c as with
    | some i => some (i + 1)
    | none => if a = c then some 0 else none

/-- Model of `PurePosixPath(s).name`: the final path component, with empty and
`.` components dropped; `""` when no component remains. -/
def pathName (s : String) : String :=
  ((((splitOnChar '/' s.data).map (fun cs => (⟨cs⟩ : String))).filter
    (fun c => c ≠ "" && c ≠ ".")).getLast?).getD ""

/-- Model of `PurePosixPath(s).suffix`: the part of `name` from its last dot
`i`, provided `0 < i < len(name) - 1`, else `""`. -/
def pathSuffix (s : String) : String :=
  match lastIdxOf '.' (pathName s).data with
  | none => ""
  | some i =>
    if 0 < i && i + 1 < (pathName s).data.length then ⟨(pathName s).data.drop i⟩
    else ""

/-- Model of `PurePosixPath(s).stem`: `name` cut before its last dot under the
same proviso as `pathSuffix`, else `name` itself. -/
def pathStem (s : String) : String :=
  match lastIdxOf '.' (pathName s).data with
  | none => pathName s
  | some i =>
    if 0 < i && i + 1 < (pathName s).data.length then ⟨(pathName s).data.take i⟩
    else pathName s

/-- Deterministic core of `_sanitize_filename`: keep the basename, strip
surrounding whitespace, underscore internal spaces, and drop characters
outside `[a-zA-Z0-9._-]`. -/
def sanitizeCore (name : String) : String :=
  ⟨((pyStrip (pathName name).data).map (fun c => if c = ' ' then '_' else c)).filter allowedChar⟩

/-- Model of `_sanitize_filename`: the sanitizing core with the
`file_{uuid4().hex}` fallback when nothing remains.  The random hex token is
the explicit argument `token`. -/
def sanitizeFilename (name : String) (token : String) : String :=
  if sanitizeCore name = "" then "file_" ++ token else sanitizeCore name

/-- Lowercase a character list (ASCII, as used by Python on these inputs). -/
def toLowerList (cs : List Char) : List Char := cs.map Char.toLower

/-- Model of `posixpath.splitext`: split at the last dot strictly after the
last slash, unless every character of the basename before that dot is itself a
dot (leading dots are not an extension). Returns `(base, ext)`. -/
def splitext (cs : List Char) : List Char × List Char :=
  match lastIdxOf '.' cs with
  | none => (cs, [])
  | some d =>
    let fi : Nat := match lastIdxOf '/' cs with | none => 0 | some s => s + 1
    if fi ≤ d && ((cs.drop fi).take (d - fi)).any (fun c => c ≠ '.') then
      (cs.take d, cs.drop d)
    else (cs, [])

/-- First-match association lookup (Python dict membership on these literal
tables). -/
def lookupMap : List (String × String) → String → Option String
  | [], _ => none
  | (k, v) :: rest, key => if key = k then some v else lookupMap rest key

/-- Model of `mimetypes.suffix_map`. -/
def suffixTable : List (String × String) :=
  [(".svgz", ".svg.gz"), (".taz", ".tar.gz"), (".tgz", ".tar.gz"),
   (".tbz2", ".tar.bz2"), (".txz", ".tar.xz")]

/-- Model of `mimetypes.encodings_map` (keys only matter here). -/
def encodingsTable : List (String × String) :=
  [(".gz", "gzip"), (".Z", "compress"), (".bz2", "bzip2"), (".xz", "xz"), (".br", "br")]

/-- Subset of Python's `mimetypes.types_map` covering the extensions in this
router's allow-lists plus common neighbours; every key is lowercase, exactly as
in the Python table. -/
def typesTable : List (String × String) :=
  [(".jpg", "image/jpeg"), (".jpeg", "image/jpeg"), (".jpe", "image/jpeg"),
   (".png", "image/png"), (".pdf", "application/pdf"),
   (".bin", "application/octet-stream"), (".txt", "text/plain"),
   (".gif", "image/gif"), (".svg", "image/svg+xml"), (".tar", "application/x-tar"),
   (".html", "text/html")]

/-- Model of `mimetypes.guess_type(filename)[0]` for plain filenames (the
callers pass sanitized names, which contain no URL scheme separator `:`).
The `suffix_map` rewrite loop is bounded by explicit fuel; the default fuel is
far beyond what any chain in `suffixTable` can use. -/
def guessTypeAux : Nat → List Char → Option String
  | 0, _ => none
  | fuel + 1, cs =>
    let be := splitext cs
    let extLower : String := ⟨toLowerList be.2⟩
    match lookupMap suffixTable extLower with
    | some repl => guessTypeAux fuel (be.1 ++ repl.data)
    | none =>
      let be2 := if (lookupMap encodingsTable extLower).isSome then splitext be.1 else be
      match lookupMap typesTable ⟨be2.2⟩ with
      | some t => some t
      | none => lookupMap typesTable ⟨toLowerList be2.2⟩

/-- Entry point of the MIME guess model. -/
def guessType (filename : String) : Option String := guessTypeAux 10 filename.data

/-- Configuration constant `ALLOWED_MIME_TYPES`. -/
def ALLOWED_MIME_TYPES : List String := ["image/jpeg", "image/png", "application/pdf"]

/-- Configuration constant `ALLOWED_EXTENSIONS`. -/
def ALLOWED_EXTENSIONS : List String := [".jpg", ".jpeg", ".png", ".pdf"]

/-- Configuration constant `MAX_FILE_SIZE_BYTES` (10 MB). -/
def MAX_FILE_SIZE_BYTES : Nat := 10 * 1024 * 1024

/-- Configuration constant `CHUNK_SIZE` (1 MB). -/
def CHUNK_SIZE : Nat := 1024 * 1024

/-- Model of `_has_allowed_extension`. -/
def hasAllowedExtension (filename : String) : Bool :=
  ALLOWED_EXTENSIONS.contains ⟨toLowerList (pathSuffix filename).data⟩

/-- Model of `_is_allowed_mime`: accept a declared content type on the
allow-list, else fall back to the guessed type of the filename. -/
def isAllowedMime (contentType : Option String) (filename : String) : Bool :=
  (match contentType with
   | some ct => ALLOWED_MIME_TYPES.contains ct
   | none => false) ||
  (match guessType filename with
   | some g => ALLOWED_MIME_TYPES.contains g
   | none => false)

/-- Error kinds of the upload router (the `HTTPException`s it raises, keyed by
the specification's taxonomy; `payloadTooLarge` carries the configured limit as
its detail message does). -/
inductive UploadError where
  | unsupportedExtension
  | unsupportedContentType
  | invalidDestination
  | payloadTooLarge (limit : Nat)
  | notFound
  | noFiles
  deriving Repr, DecidableEq

deriving instance DecidableEq for Except

/-- The validation prefix common to the upload handlers: reject a disallowed
extension, then a disallowed effective content type. -/
def validateUpload (contentType : Option String) (safeName : String) :
    Except UploadError Unit :=
  if hasAllowedExtension safeName = false then .error .unsupportedExtension
  else if isAllowedMime contentType safeName = false then .error .unsupportedContentType
  else .ok ()

/-- Character rendering of an absolute path from its components
(`str(PosixPath)` of a resolved path): `/a/b` style, `[]` rendering as `/`. -/
def rawChars (comps : List String) : List Char :=
  comps.foldl (fun acc c => acc ++ '/' :: c.data) []

/-- String rendering of an absolute path (`str(Path)`). -/
def pathStr (comps : List String) : String :=
  if comps = [] then "/" else ⟨rawChars comps⟩

/-- Boolean prefix test on character lists. -/
def listStartsWith : List Char → List Char → Bool
  | [], _ => true
  | _ :: _, [] => false
  | a :: as, b :: bs => a == b && listStartsWith as bs

/-- Python `str.startswith`. -/
def strStartsWith (s pre : String) : Bool := listStartsWith pre.data s.data

/-- Lexical processing of path components against an already-resolved base:
empty and `.` components vanish, `..` pops (staying at the root), anything
else descends. -/
def resolveComps (start : List String) (comps : List String) : List String :=
  comps.foldl
    (fun acc c =>
      if c = "" || c = "." then acc
      else if c = ".." then acc.dropLast
      else acc ++ [c])
    start

/-- Model of `(root / rel).resolve()` on a symlink-free volume, where `root` is
already resolved.  An absolute `rel` replaces the base, as `pathlib`'s `/`
does. -/
def joinResolve (root : List String) (rel : String) : List String :=
  let start : List String := if rel.data.head? = some '/' then [] else root
  resolveComps start ((splitOnChar '/' rel.data).map (fun cs => (⟨cs⟩ : String)))

/-- Model of `_unique_destination`: `{stem}__{uuid4().hex}{ext}` resolved under
the storage root; the random hex is the explicit argument `hex`. -/
def uniqueName (safeName hex : String) : String :=
  pathStem safeName ++ "__" ++ hex ++ pathSuffix safeName

/-- Resolved absolute destination path produced by `_unique_destination`. -/
def uniqueDestination (root : List String) (safeName hex : String) : String :=
  pathStr (joinResolve root (uniqueName safeName hex))

/-- Shape of a resolved storage root (`UPLOAD_DIR = Path("var/uploads").resolve()`):
a non-empty list of non-empty, slash-free, non-dot components. -/
def rootOk (root : List String) : Bool :=
  !root.isEmpty &&
  root.all (fun c => c ≠ "" && c ≠ "." && c ≠ ".." && c.data.all (fun ch => ch ≠ '/'))

/-- File system: map from absolute path strings to file contents (bytes as
`Nat`s). Directories are not entries. -/
def FS : Type := String → Option (List Nat)

/-- Create or truncate a file (`touch` + `write_bytes(b"")` or a full write). -/
def fsSet (fs : FS) (p : String) (d : List Nat) : FS :=
  fun q => if q = p then some d else fs q

/-- Remove a file (`unlink(missing_ok=True)`). -/
def fsErase (fs : FS) (p : String) : FS :=
  fun q => if q = p then none else fs q

/-- Append a chunk to a file (`open(path, "ab")` followed by `write`). -/
def fsAppend (fs : FS) (p : String) (c : List Nat) : FS :=
  fun q => if q = p then some ((fs p).getD [] ++ c) else fs q

/-- Successive results of `await up.read(n)` on a stream holding `l`:
the chunks of `l` of size `n`.  Reading with `n = 0` yields `b''` at once, so
no chunk is produced.  Structural fuel equals the length of the remainder. -/
def chunksOfAux (n : Nat) : Nat → List Nat → List (List Nat)
  | _, [] => []
  | 0, _ :: _ => []
  | fuel + 1, l@(_ :: _) =>
    if n = 0 then [] else l.take n :: chunksOfAux n fuel (l.drop n)

/-- Chunk a byte list into reads of size `n`. -/
def chunksOf (n : Nat) (l : List Nat) : List (List Nat) := chunksOfAux n l.length l

/-- The read/append loop of `_save_streaming_with_limit`: append each chunk
after checking the running total against the limit; on exceeding it, delete
the partial destination file and fail with the configured limit. -/
def writeChunks (dest : String) (maxBytes : Nat) :
    List (List Nat) → Nat → FS → Except UploadError Nat × FS
  | [], total, fs => (.ok total, fs)
  | c :: rest, total, fs =>
    if c.isEmpty then (.ok total, fs)
    else
      let total' := total + c.length
      if maxBytes < total' then (.error (.payloadTooLarge maxBytes), fsErase fs dest)
      else writeChunks dest maxBytes rest total' (fsAppend fs dest c)

/-- Model of `_save_streaming_with_limit`: refuse a destination outside the
storage root before any I/O, truncate the destination, then stream chunks
under the size limit.  Returns the byte count written and the file system. -/
def saveStreamingWithLimit (root : List String) (data : List Nat) (chunkSize : Nat)
    (dest : String) (maxBytes : Nat) (fs : FS) : Except UploadError Nat × FS :=
  if strStartsWith dest (pathStr root) = false then (.error .invalidDestination, fs)
  else writeChunks dest maxBytes (chunksOf chunkSize data) 0 (fsSet fs dest [])

/-- Response DTO `FileMeta`. -/
structure FileMeta where
  filename : String
  originalFilename : String
  contentType : String
  sizeBytes : Nat
  url : String
  deriving Repr, DecidableEq

/-- Model of `file.content_type or mimetypes.guess_type(safe)[0] or
"application/octet-stream"` (Python treats `None` and `""` as falsy). -/
def resolveContentType (ct : Option String) (safe : String) : String :=
  let fallback := (guessType safe).getD "application/octet-stream"
  match ct with
  | some s => if s = "" then fallback else s
  | none => fallback

/-- Model of `upload_single` (also the per-file body of `upload_multiple`,
which repeats the same steps): default the filename, sanitize, validate,
derive a unique destination, and stream to it under the size limit.  The
random values of this call are the arguments `token` (sanitizer fallback) and
`hex` (destination suffix). -/
def uploadSingle (root : List String) (filename contentType : Option String)
    (data : List Nat) (token hex : String) (chunkSize maxBytes : Nat) (fs : FS) :
    Except UploadError FileMeta × FS :=
  let original := match filename with
    | none => "upload.bin"
    | some s => if s = "" then "upload.bin" else s
  let safe := sanitizeFilename original token
  if hasAllowedExtension safe = false then (.error .unsupportedExtension, fs)
  else if isAllowedMime contentType safe = false then (.error .unsupportedContentType, fs)
  else
    let dest := uniqueDestination root safe hex
    let res := saveStreamingWithLimit root data chunkSize dest maxBytes fs
    match res.1 with
    | .error e => (.error e, res.2)
    | .ok size =>
      (.ok { filename := pathName dest, originalFilename := original,
             contentType := resolveContentType contentType safe,
             sizeBytes := size, url := "/upload/files/" ++ pathName dest }, res.2)

/-- Loop of `upload_multiple`: process the files in order, aborting the whole
request (discarding all accumulated metadata) on the first failure.  Random
values of the k-th file are `tok k` and `hx k`. -/
def uploadMultipleGo (root : List String) (tok hx : Nat → String)
    (chunkSize maxBytes : Nat) :
    List (Option String × Option String × List Nat) → Nat → FS → List FileMeta →
    Except UploadError (List FileMeta) × FS
  | [], _, fs, acc => (.ok acc.reverse, fs)
  | (fn, ct, d) :: rest, k, fs, acc =>
    let r := uploadSingle root fn ct d (tok k) (hx k) chunkSize maxBytes fs
    match r.1 with
    | .error e => (.error e, r.2)
    | .ok meta =>
      uploadMultipleGo root tok hx chunkSize maxBytes rest (k + 1) r.2 (meta :: acc)

/-- Model of `upload_multiple`. -/
def uploadMultiple (root : List String)
    (files : List (Option String × Option String × List Nat)) (tok hx : Nat → String)
    (chunkSize maxBytes : Nat) (fs : FS) : Except UploadError (List FileMeta) × FS :=
  if files.isEmpty then (.error .noFiles, fs)
  else uploadMultipleGo root tok hx chunkSize maxBytes files 0 fs []

/-- Model of `get_file`: re-sanitize the caller-supplied stored name, resolve
it under the storage root, guard containment before touching storage, then
serve the bytes with a guessed media type. -/
def getFile (root : List String) (storedName token : String) (fs : FS) :
    Except UploadError (List Nat × Option String) :=
  let safeName := sanitizeFilename storedName token
  let filePath := pathStr (joinResolve root safeName)
  if strStartsWith filePath (pathStr root) = false then .error .invalidDestination
  else
    match fs filePath with
    | none => .error .notFound
    | some d => .ok (d, guessType (pathName filePath))

/-- Model of `delete_file`: same guard as `get_file`, then remove the file. -/
def deleteFile (root : List String) (storedName token : String) (fs : FS) :
    Except UploadError Unit × FS :=
  let safeName := sanitizeFilename storedName token
  let filePath := pathStr (joinResolve root safeName)
  if strStartsWith filePath (pathStr root) = false then (.error .invalidDestination, fs)
  else
    match fs filePath with
    | none => (.error .notFound, fs)
    | some _ => (.ok (), fsErase fs filePath)

/-- Concatenate a chunk list back into a byte list. -/
def flat : List (List Nat) → List Nat
  | [] => []
  | c :: cs => c ++ flat cs

/-- Content type obtained by looking the filename's extension (lowercased) up
in the MIME table — the "content type inferred from the extension" in the
specification's words, used to compare the validator model against the
specification's description of it. -/
def inferredFromExtension (filename : String) : Option String :=
  lookupMap typesTable ⟨toLowerList (pathSuffix filename).data⟩

/-- The type/extension validator exactly as the specification words it:
reject a disallowed extension; accept an allow-listed declared type; otherwise
accept exactly when the content type inferred from the extension is
allow-listed.  Spec-side model, to be compared with `validateUpload`. -/
def validateUploadSpec (contentType : Option String) (safeName : String) :
    Except UploadError Unit :=
  if hasAllowedExtension safeName = false then .error .unsupportedExtension
  else if (match contentType with
           | some ct => ALLOWED_MIME_TYPES.contains ct
           | none => false) then .ok ()
  else if (match inferredFromExtension safeName with
           | some g => ALLOWED_MIME_TYPES.contains g
           | none => false) then .ok ()
  else .error .unsupportedContentType

/-- Some character strictly before the last dot differs from a dot — exactly
the proviso under which `posixpath.splitext` grants the name an extension
(`Path.suffix` does not impose it, which is where the two differ). -/
def stemNotAllDots (filename : String) : Bool :=
  match lastIdxOf '.' filename.data with
  | none => true
  | some d => (filename.data.take d).any (fun c => c ≠ '.')

/-- Empty storage. -/
def fsEmpty : FS := fun _ => none

/-- Fixed 32-digit hex token standing in for a `uuid4().hex` draw in concrete
instantiations. -/
def hex32 : String := "0123456789abcdef0123456789abcdef"

/-- Record produced by uploading `a.png` declared `image/png` with three
bytes under `/srv/uploads`, with both random draws fixed to `hex32`. -/
def metaW : FileMeta :=
  { filename := "a__0123456789abcdef0123456789abcdef.png",
    originalFilename := "a.png",
    contentType := "image/png",
    sizeBytes := 3,
    url := "/upload/files/a__0123456789abcdef0123456789abcdef.png" }

example : sanitizeFilename "../../etc/passwd" "00" = "passwd" := by decide
example : sanitizeFilename " my file.png " "00" = "my_file.png" := by decide
example : sanitizeFilename " . " "00" = "." := by decide
example : sanitizeFilename "." "0a" = "file_0a" := by decide
example : sanitizeFilename ".." "0a" = ".." := by decide
example : pathSuffix "..jpg" = ".jpg" := by decide
example : pathSuffix "a.tar.PNG" = ".PNG" := by decide
example : pathStem "a.tar.png" = "a.tar" := by decide
example : pathSuffix ".bashrc" = "" := by decide
example : pathSuffix "foo." = "" := by decide

/-! ## Character-class lemmas -/

lemma allowedChar_ne_slash {c : Char} (h : allowedChar c = true) : c ≠ '/' := by
  rintro rfl; simp [allowedChar] at h

lemma allowedChar_ne_space {c : Char} (h : allowedChar c = true) : c ≠ ' ' := by
  rintro rfl; simp [allowedChar] at h

lemma allowedChar_not_pySpace {c : Char} (h : allowedChar c = true) :
    isPySpace c = false := by
  cases hcase : isPySpace c with
  | false => rfl
  | true =>
    exfalso
    simp only [isPySpace, Bool.or_eq_true, beq_iff_eq, or_assoc] at hcase
    rcases hcase with rfl|rfl|rfl|rfl|rfl|rfl|rfl|rfl|rfl|rfl|rfl|rfl|rfl|rfl|rfl|
      rfl|rfl|rfl|rfl|rfl|rfl|rfl|rfl|rfl|rfl|rfl|rfl|rfl|rfl <;>
      exact absurd h (by decide)

lemma isHexLowerChar_allowed {c : Char} (h : isHexLowerChar c = true) :
    allowedChar c = true := by
  simp only [isHexLowerChar, Bool.or_eq_true, Bool.and_eq_true, decide_eq_true_eq] at h
  rcases h with h | ⟨h1, h2⟩
  · simp [allowedChar, h]
  · have hlow : c.isLower = true := by
      simp only [Char.isLower, Bool.and_eq_true, decide_eq_true_eq, ge_iff_le]
      exact ⟨h1, le_trans h2 (show ('f' : Char) ≤ 'z' by decide)⟩
    simp [allowedChar, Char.isAlpha, hlow]

/-! ## List and string primitive lemmas -/

lemma dropWhile_eq_self_of_none {p : Char → Bool} {cs : List Char}
    (h : ∀ c ∈ cs, p c = false) : cs.dropWhile p = cs := by
  cases cs with
  | nil => rfl
  | cons a as => simp [List.dropWhile, h a (by simp)]

lemma pyStrip_eq_self {cs : List Char} (h : ∀ c ∈ cs, isPySpace c = false) :
    pyStrip cs = cs := by
  unfold pyStrip
  rw [dropWhile_eq_self_of_none h, dropWhile_eq_self_of_none (by simp_all),
    List.reverse_reverse]

lemma splitOnChar_ne_nil (sep : Char) (cs : List Char) : splitOnChar sep cs ≠ [] := by
  induction cs with
  | nil => simp [splitOnChar]
  | cons a as ih =>
    rw [splitOnChar]
    split
    · simp
    · split <;> simp

lemma splitOnChar_no_sep {sep : Char} {cs : List Char}
    (h : ∀ c ∈ cs, c ≠ sep) : splitOnChar sep cs = [cs] := by
  induction cs with
  | nil => rfl
  | cons a as ih =>
    have ha : a ≠ sep := h a (by simp)
    have ih' := ih (fun c hc => h c (by simp [hc]))
    rw [splitOnChar, if_neg ha, ih']

lemma splitOnChar_append_sep (sep : Char) (xs ys : List Char) :
    splitOnChar sep (xs ++ sep :: ys) = splitOnChar sep xs ++ splitOnChar sep ys := by
  induction xs with
  | nil => simp [splitOnChar]
  | cons a as ih =>
    by_cases ha : a = sep
    · subst ha
      simp [splitOnChar, ih]
    · rcases hsp2 : splitOnChar sep as with _ | ⟨g2, gs2⟩
      · exact absurd hsp2 (splitOnChar_ne_nil sep _)
      · simp [splitOnChar, ha, ih, hsp2]

lemma data_append (a b : String) : (a ++ b).data = a.data ++ b.data := by
  cases a; cases b; rfl

lemma lastIdxOf_none {x : Char} {cs : List Char} (h : ∀ c ∈ cs, c ≠ x) :
    lastIdxOf x cs = none := by
  induction cs with
  | nil => rfl
  | cons a as ih =>
    simp only [lastIdxOf, ih (fun c hc => h c (by simp [hc]))]
    simp [h a (by simp)]

/-! ## Sanitizer lemmas -/

lemma pathName_of_clean {s : String} (h0 : s ≠ "") (h1 : s ≠ ".")
    (h2 : ∀ c ∈ s.data, c ≠ '/') : pathName s = s := by
  unfold pathName
  rw [splitOnChar_no_sep h2]
  have hs : (⟨s.data⟩ : String) = s := rfl
  simp only [List.map, hs]
  rw [List.filter_cons_of_pos (by simp [h0, h1])]
  rfl

lemma filter_allowed_of_all {cs : List Char} (h : ∀ c ∈ cs, allowedChar c = true) :
    cs.filter allowedChar = cs :=
  List.filter_eq_self.mpr h

lemma sanitizeCore_of_clean {s : String} (h0 : s ≠ "") (h1 : s ≠ ".")
    (hall : s.data.all allowedChar = true) : sanitizeCore s = s := by
  have hmem : ∀ c ∈ s.data, allowedChar c = true := by
    simpa [List.all_eq_true] using hall
  unfold sanitizeCore
  rw [pathName_of_clean h0 h1 (fun c hc => allowedChar_ne_slash (hmem c hc)),
    pyStrip_eq_self (fun c hc => allowedChar_not_pySpace (hmem c hc))]
  rw [List.map_congr_left (fun c hc => by
    rw [if_neg (allowedChar_ne_space (hmem c hc))]), List.map_id']
  rw [filter_allowed_of_all hmem]

lemma sanitizeFilename_of_clean {s : String} (h0 : s ≠ "") (h1 : s ≠ ".")
    (hall : s.data.all allowedChar = true) (tok : String) :
    sanitizeFilename s tok = s := by
  unfold sanitizeFilename
  rw [sanitizeCore_of_clean h0 h1 hall, if_neg h0]

lemma sanitizeCore_all_allowed (name : String) :
    (sanitizeCore name).data.all allowedChar = true := by
  unfold sanitizeCore
  rw [List.all_eq_true]
  intro c hc
  exact (List.mem_filter.mp hc).2

lemma sanitizeFilename_shape (name : String) {token : String}
    (htok : hexOk token = true) :
    sanitizeFilename name token ≠ "" ∧
    (sanitizeFilename name token).data.all allowedChar = true := by
  unfold sanitizeFilename
  split
  case isTrue hc =>
    refine ⟨?_, ?_⟩
    · intro hcontra
      have hd : "file_".data ++ token.data = ([] : List Char) := by
        have h2 := congrArg String.data hcontra
        rw [data_append] at h2
        exact h2
      exact absurd (List.append_eq_nil.mp hd).1 (by decide)
    · rw [data_append]
      simp only [List.all_append, Bool.and_eq_true]
      refine ⟨by decide, ?_⟩
      simp only [hexOk, List.all_eq_true] at htok ⊢
      exact fun c hc => isHexLowerChar_allowed (htok c hc)
  case isFalse hc =>
    exact ⟨hc, sanitizeCore_all_allowed name⟩

/-! ## Claims C7 and C8: sanitizer output shape and idempotence -/

/-- C7: for every input string, the sanitizer's output is non-empty and drawn
entirely from `[A-Za-z0-9._-]`; when the filtering core leaves nothing, the
output is synthesized as `file_` followed by the random hex token. -/
theorem C7_sanitizer_output (name token : String) (htok : hexOk token = true) :
    sanitizeFilename name token ≠ "" ∧
    (sanitizeFilename name token).data.all allowedChar = true ∧
    (sanitizeCore name = "" → sanitizeFilename name token = "file_" ++ token) := by
  obtain ⟨h1, h2⟩ := sanitizeFilename_shape name htok
  refine ⟨h1, h2, fun hc => ?_⟩
  unfold sanitizeFilename
  rw [if_pos hc]

/-- Witness for C7: a filename of path separators and punctuation, whose core
sanitizes to nothing and is replaced by the synthesized token name. -/
theorem C7_sanitizer_output_witness :
    hexOk hex32 = true ∧
    (sanitizeFilename "../)(%" hex32 ≠ "" ∧
     (sanitizeFilename "../)(%" hex32).data.all allowedChar = true ∧
     (sanitizeCore "../)(%" = "" → sanitizeFilename "../)(%" hex32 = "file_" ++ hex32)) :=
  ⟨by decide, C7_sanitizer_output "../)(%" hex32 (by decide)⟩

/-- C8 counterexample: sanitizing `" . "` yields `"."`, but sanitizing that
output again synthesizes a fresh `file_…` name, so the sanitizer is not
idempotent as claimed. -/
theorem C8_counterexample :
    sanitizeFilename " . " hex32 = "." ∧
    sanitizeFilename (sanitizeFilename " . " hex32) hex32 ≠
      sanitizeFilename " . " hex32 := by
  decide

/-- C8 (amended): the sanitizer is idempotent on every input whose sanitized
output is not the single-dot name `"."` (for that one output the basename step
of the second pass erases it and the fallback renames it). -/
theorem C8_sanitizer_idempotent (name t t' : String) (ht : hexOk t = true)
    (hdot : sanitizeFilename name t ≠ ".") :
    sanitizeFilename (sanitizeFilename name t) t' = sanitizeFilename name t := by
  obtain ⟨h1, h2⟩ := sanitizeFilename_shape name ht
  exact sanitizeFilename_of_clean h1 hdot h2 t'

/-- Witness for C8 (amended): re-sanitizing the sanitized form of
`" my file.png "` changes nothing. -/
theorem C8_sanitizer_idempotent_witness :
    (hexOk hex32 = true ∧ sanitizeFilename " my file.png " hex32 ≠ ".") ∧
    sanitizeFilename (sanitizeFilename " my file.png " hex32) hex32 =
      sanitizeFilename " my file.png " hex32 :=
  ⟨⟨by decide, by decide⟩,
    C8_sanitizer_idempotent " my file.png " hex32 hex32 (by decide) (by decide)⟩

/-! ## Path rendering and resolution lemmas -/

lemma data_eq_nil_iff {s : String} : s.data = [] ↔ s = "" := by
  obtain ⟨d⟩ := s
  constructor
  · intro h
    change d = [] at h
    subst h
    rfl
  · intro h
    rw [h]

lemma listStartsWith_append_self (p q : List Char) :
    listStartsWith p (p ++ q) = true := by
  induction p with
  | nil => rfl
  | cons a as ih => simp [listStartsWith, ih]

lemma listStartsWith_le_length {p s : List Char}
    (h : listStartsWith p s = true) : p.length ≤ s.length := by
  induction p generalizing s with
  | nil => simp
  | cons a as ih =>
    cases s with
    | nil => simp [listStartsWith] at h
    | cons b bs =>
      simp only [listStartsWith, Bool.and_eq_true] at h
      simpa using ih h.2

lemma listStartsWith_false_of_longer {p s : List Char}
    (h : s.length < p.length) : listStartsWith p s = false := by
  cases hc : listStartsWith p s with
  | false => rfl
  | true => exact absurd (listStartsWith_le_length hc) (by omega)

lemma rawChars_concat (xs : List String) (x : String) :
    rawChars (xs ++ [x]) = rawChars xs ++ '/' :: x.data := by
  unfold rawChars
  rw [List.foldl_append]
  rfl

lemma pathStr_data_of_ne_nil {comps : List String} (h : comps ≠ []) :
    (pathStr comps).data = rawChars comps := by
  unfold pathStr
  rw [if_neg h]

lemma strStartsWith_append_root (root : List String) (u : String) :
    strStartsWith (pathStr (root ++ [u])) (pathStr root) = true := by
  by_cases h : root = []
  · subst h
    unfold strStartsWith
    rw [@pathStr_data_of_ne_nil ([] ++ [u]) (by simp)]
    rfl
  · unfold strStartsWith
    rw [pathStr_data_of_ne_nil h, @pathStr_data_of_ne_nil (root ++ [u]) (by simp),
      rawChars_concat]
    exact listStartsWith_append_self _ _

lemma strStartsWith_dropLast_false {root : List String} (hroot : rootOk root = true) :
    strStartsWith (pathStr root.dropLast) (pathStr root) = false := by
  rcases List.eq_nil_or_concat root with h | ⟨xs, x, hcat⟩
  · subst h
    simp [rootOk] at hroot
  · rw [List.concat_eq_append] at hcat
    subst hcat
    have hx : x ≠ "" := by
      simp only [rootOk, Bool.and_eq_true, List.all_eq_true] at hroot
      have := hroot.2 x (by simp)
      simp only [Bool.and_eq_true, decide_eq_true_eq] at this
      exact this.1.1.1
    have hxlen : 0 < x.data.length := by
      cases hd : x.data with
      | nil => exact absurd (data_eq_nil_iff.mp hd) hx
      | cons c cs => simp
    rw [List.dropLast_concat]
    unfold strStartsWith
    rw [pathStr_data_of_ne_nil (by simp)]
    rw [rawChars_concat]
    apply listStartsWith_false_of_longer
    by_cases hxs : xs = []
    · subst hxs
      unfold pathStr
      rw [if_pos rfl]
      show ("/").data.length < (rawChars [] ++ '/' :: x.data).length
      simp only [rawChars, List.foldl_nil, List.nil_append, List.length_cons]
      show 1 < x.data.length + 1
      omega
    · rw [pathStr_data_of_ne_nil hxs]
      simp only [List.length_append, List.length_cons]
      omega

lemma joinResolve_single {root : List String} {s : String} (h0 : s ≠ "")
    (hns : ∀ c ∈ s.data, c ≠ '/') :
    joinResolve root s =
      if s = "." then root
      else if s = ".." then root.dropLast
      else root ++ [s] := by
  obtain ⟨ds⟩ := s
  cases ds with
  | nil => exact absurd rfl h0
  | cons c cs =>
    have hc : c ≠ '/' := hns c (by simp)
    simp only [joinResolve]
    rw [if_neg (show ¬((⟨c :: cs⟩ : String).data.head? = some '/') from
      fun h => hc (Option.some.inj h))]
    have hsplit : splitOnChar '/' (⟨c :: cs⟩ : String).data = [c :: cs] :=
      splitOnChar_no_sep hns
    rw [hsplit]
    show resolveComps root [⟨c :: cs⟩] = _
    unfold resolveComps
    simp only [List.foldl_cons, List.foldl_nil]
    by_cases hdot : (⟨c :: cs⟩ : String) = "."
    · simp [hdot]
    · by_cases hddot : (⟨c :: cs⟩ : String) = ".."
      · simp [h0, hdot, hddot]
      · simp [h0, hdot, hddot]

/-! ## Destination-name lemmas -/

lemma all_of_subset {p : Char → Bool} {cs ds : List Char} (hsub : ds ⊆ cs)
    (h : cs.all p = true) : ds.all p = true :=
  List.all_eq_true.mpr fun c hc => List.all_eq_true.mp h c (hsub hc)

lemma pathName_allowed {s : String} (h : s.data.all allowedChar = true) :
    (pathName s).data.all allowedChar = true := by
  by_cases h0 : s = ""
  · subst h0; decide
  · by_cases h1 : s = "."
    · subst h1; decide
    · have hmem := List.all_eq_true.mp h
      rw [pathName_of_clean h0 h1 (fun c hc => allowedChar_ne_slash (hmem c hc))]
      exact h

lemma pathStem_data_subset (s : String) : (pathStem s).data ⊆ (pathName s).data := by
  unfold pathStem
  split
  · exact fun a ha => ha
  · split
    · exact List.take_subset _ _
    · exact fun a ha => ha

lemma pathSuffix_data_subset (s : String) :
    (pathSuffix s).data ⊆ (pathName s).data := by
  unfold pathSuffix
  split
  · exact List.nil_subset _
  · split
    · exact List.drop_subset _ _
    · exact List.nil_subset _

lemma pathStem_allowed {s : String} (h : s.data.all allowedChar = true) :
    (pathStem s).data.all allowedChar = true :=
  all_of_subset (pathStem_data_subset s) (pathName_allowed h)

lemma pathSuffix_allowed {s : String} (h : s.data.all allowedChar = true) :
    (pathSuffix s).data.all allowedChar = true :=
  all_of_subset (pathSuffix_data_subset s) (pathName_allowed h)

lemma underscore_mem_uniqueName (safe hex : String) :
    '_' ∈ (uniqueName safe hex).data := by
  unfold uniqueName
  simp only [data_append, List.mem_append]
  exact Or.inl (Or.inl (Or.inr (by decide)))

lemma uniqueName_ne_special (safe hex : String) :
    uniqueName safe hex ≠ "" ∧ uniqueName safe hex ≠ "." ∧
      uniqueName safe hex ≠ ".." := by
  have hmem := underscore_mem_uniqueName safe hex
  refine ⟨?_, ?_, ?_⟩ <;> intro h <;> rw [h] at hmem <;>
    exact absurd hmem (by decide)

lemma uniqueName_allowed (safe hex : String)
    (hs : safe.data.all allowedChar = true) (hh : hexOk hex = true) :
    (uniqueName safe hex).data.all allowedChar = true := by
  unfold uniqueName
  simp only [data_append, List.all_append, Bool.and_eq_true]
  refine ⟨⟨⟨pathStem_allowed hs, by decide⟩, ?_⟩, pathSuffix_allowed hs⟩
  exact List.all_eq_true.mpr fun c hc =>
    isHexLowerChar_allowed (List.all_eq_true.mp hh c hc)

/-! ## Claim C1: containment of every resolved path in the storage root -/

/-- C1: with a well-formed storage root, (a) whenever the retrieval/deletion
guard's `startswith` check accepts the re-sanitized stored name, the resolved
path really lies under the root (component-wise prefix); (b) the destination
namer's resolved path always lies under the root and always passes the check;
(c) the streaming writer refuses any destination failing the check before
touching storage, returning `InvalidDestination` with the file system intact;
(d) likewise the deletion guard rejects without touching storage. -/
theorem C1_traversal_guard (root : List String) (name token hex d : String)
    (data : List Nat) (chunkSize maxBytes : Nat) (fs : FS)
    (hroot : rootOk root = true) (htok : hexOk token = true)
    (hhex : hexOk hex = true) :
    (strStartsWith (pathStr (joinResolve root (sanitizeFilename name token)))
        (pathStr root) = true →
      root <+: joinResolve root (sanitizeFilename name token)) ∧
    (root <+: joinResolve root (uniqueName (sanitizeFilename name token) hex) ∧
      strStartsWith (uniqueDestination root (sanitizeFilename name token) hex)
        (pathStr root) = true) ∧
    (strStartsWith d (pathStr root) = false →
      saveStreamingWithLimit root data chunkSize d maxBytes fs =
        (.error .invalidDestination, fs)) ∧
    (strStartsWith (pathStr (joinResolve root (sanitizeFilename name token)))
        (pathStr root) = false →
      deleteFile root name token fs = (.error .invalidDestination, fs)) := by
  obtain ⟨hne, hall⟩ := sanitizeFilename_shape name htok
  have hns : ∀ c ∈ (sanitizeFilename name token).data, c ≠ '/' :=
    fun c hc => allowedChar_ne_slash (List.all_eq_true.mp hall c hc)
  have hjr := @joinResolve_single root (sanitizeFilename name token) hne hns
  obtain ⟨hu0, hu1, hu2⟩ := uniqueName_ne_special (sanitizeFilename name token) hex
  have huall := uniqueName_allowed (sanitizeFilename name token) hex hall hhex
  have huns : ∀ c ∈ (uniqueName (sanitizeFilename name token) hex).data, c ≠ '/' :=
    fun c hc => allowedChar_ne_slash (List.all_eq_true.mp huall c hc)
  have hju := @joinResolve_single root
    (uniqueName (sanitizeFilename name token) hex) hu0 huns
  refine ⟨?_, ⟨?_, ?_⟩, ?_, ?_⟩
  · intro hacc
    by_cases hdot : sanitizeFilename name token = "."
    · rw [hjr, if_pos hdot]
    · by_cases hddot : sanitizeFilename name token = ".."
      · rw [hjr, if_neg hdot, if_pos hddot] at hacc
        rw [strStartsWith_dropLast_false hroot] at hacc
        exact absurd hacc (by simp)
      · rw [hjr, if_neg hdot, if_neg hddot]
        exact List.prefix_append root _
  · rw [hju, if_neg hu1, if_neg hu2]
    exact List.prefix_append root _
  · unfold uniqueDestination
    rw [hju, if_neg hu1, if_neg hu2]
    exact strStartsWith_append_root root _
  · intro h
    unfold saveStreamingWithLimit
    rw [if_pos h]
  · intro h
    simp only [deleteFile]
    rw [if_pos h]

/-- Witness for C1 at the spec's Scenario B input `"../../etc/passwd"` under
the root `/srv/uploads`, with an outside path `/etc/shadow` for the writer
conjunct. -/
theorem C1_traversal_guard_witness :
    (rootOk ["srv", "uploads"] = true ∧ hexOk hex32 = true) ∧
    ((strStartsWith
        (pathStr (joinResolve ["srv", "uploads"]
          (sanitizeFilename "../../etc/passwd" hex32)))
        (pathStr ["srv", "uploads"]) = true →
      ["srv", "uploads"] <+:
        joinResolve ["srv", "uploads"] (sanitizeFilename "../../etc/passwd" hex32)) ∧
    (["srv", "uploads"] <+:
        joinResolve ["srv", "uploads"]
          (uniqueName (sanitizeFilename "../../etc/passwd" hex32) hex32) ∧
      strStartsWith
        (uniqueDestination ["srv", "uploads"]
          (sanitizeFilename "../../etc/passwd" hex32) hex32)
        (pathStr ["srv", "uploads"]) = true) ∧
    (strStartsWith "/etc/shadow" (pathStr ["srv", "uploads"]) = false →
      saveStreamingWithLimit ["srv", "uploads"] [1, 2] 1 "/etc/shadow" 10 fsEmpty =
        (.error .invalidDestination, fsEmpty)) ∧
    (strStartsWith
        (pathStr (joinResolve ["srv", "uploads"]
          (sanitizeFilename "../../etc/passwd" hex32)))
        (pathStr ["srv", "uploads"]) = false →
      deleteFile ["srv", "uploads"] "../../etc/passwd" hex32 fsEmpty =
        (.error .invalidDestination, fsEmpty))) :=
  ⟨⟨by decide, by decide⟩,
    C1_traversal_guard ["srv", "uploads"] "../../etc/passwd" hex32 hex32
      "/etc/shadow" [1, 2] 1 10 fsEmpty (by decide) (by decide) (by decide)⟩

/-! ## Chunking lemmas -/

lemma chunksOfAux_congr (n : Nat) :
    ∀ fuel₁ fuel₂ l, l.length ≤ fuel₁ → l.length ≤ fuel₂ →
      chunksOfAux n fuel₁ l = chunksOfAux n fuel₂ l := by
  intro fuel₁
  induction fuel₁ with
  | zero =>
    intro fuel₂ l h1 _
    have : l = [] := List.eq_nil_of_length_eq_zero (Nat.le_zero.mp h1)
    subst this
    cases fuel₂ <;> rfl
  | succ f ih =>
    intro fuel₂ l h1 h2
    cases l with
    | nil => cases fuel₂ <;> rfl
    | cons a as =>
      cases fuel₂ with
      | zero => simp at h2
      | succ f₂ =>
        simp only [chunksOfAux]
        by_cases hn : n = 0
        · rw [if_pos hn, if_pos hn]
        · rw [if_neg hn, if_neg hn]
          have hlen : ((a :: as).drop n).length ≤ f := by
            simp only [List.length_drop, List.length_cons] at *
            omega
          have hlen₂ : ((a :: as).drop n).length ≤ f₂ := by
            simp only [List.length_drop, List.length_cons] at *
            omega
          rw [ih f₂ _ hlen hlen₂]

lemma chunksOf_cons {n : Nat} (hn : n ≠ 0) {l : List Nat} (hl : l ≠ []) :
    chunksOf n l = l.take n :: chunksOf n (l.drop n) := by
  cases l with
  | nil => exact absurd rfl hl
  | cons a as =>
    show chunksOfAux n (a :: as).length (a :: as) = _
    simp only [List.length_cons, chunksOfAux, if_neg hn]
    unfold chunksOf
    rw [chunksOfAux_congr n as.length ((a :: as).drop n).length ((a :: as).drop n)
      (by simp [List.length_drop]; omega) (le_refl _)]

lemma chunksOf_flat {n : Nat} (hn : n ≠ 0) :
    ∀ fuel l, l.length ≤ fuel → flat (chunksOf n l) = l := by
  intro fuel
  induction fuel with
  | zero =>
    intro l h
    have : l = [] := List.eq_nil_of_length_eq_zero (Nat.le_zero.mp h)
    subst this
    rfl
  | succ f ih =>
    intro l h
    cases l with
    | nil => rfl
    | cons a as =>
      rw [chunksOf_cons hn (by simp)]
      show (a :: as).take n ++ flat (chunksOf n ((a :: as).drop n)) = a :: as
      rw [ih _ (by simp only [List.length_drop, List.length_cons] at *; omega)]
      exact List.take_append_drop n (a :: as)

lemma chunksOf_ne_nil_mem {n : Nat} (hn : n ≠ 0) :
    ∀ fuel l, l.length ≤ fuel → ∀ c ∈ chunksOf n l, c ≠ [] := by
  intro fuel
  induction fuel with
  | zero =>
    intro l h
    have : l = [] := List.eq_nil_of_length_eq_zero (Nat.le_zero.mp h)
    subst this
    intro c hc
    simp [chunksOf, chunksOfAux] at hc
  | succ f ih =>
    intro l h
    cases l with
    | nil => intro c hc; simp [chunksOf, chunksOfAux] at hc
    | cons a as =>
      rw [chunksOf_cons hn (by simp)]
      intro c hc
      rcases List.mem_cons.mp hc with rfl | hc'
      · cases n with
        | zero => exact absurd rfl hn
        | succ m => simp
      · exact ih _ (by simp only [List.length_drop, List.length_cons] at *; omega) c hc'

/-! ## Streaming-writer lemmas -/

lemma writeChunks_ok_of_le (dest : String) (maxBytes : Nat) :
    ∀ (chunks : List (List Nat)) (total : Nat) (fs : FS) (buf : List Nat),
      (∀ c ∈ chunks, c ≠ []) → fs dest = some buf →
      total + (flat chunks).length ≤ maxBytes →
      (writeChunks dest maxBytes chunks total fs).1 = .ok (total + (flat chunks).length) ∧
      (writeChunks dest maxBytes chunks total fs).2 dest = some (buf ++ flat chunks) ∧
      (∀ p, p ≠ dest → (writeChunks dest maxBytes chunks total fs).2 p = fs p) := by
  intro chunks
  induction chunks with
  | nil =>
    intro total fs buf _ hbuf _
    refine ⟨by simp [writeChunks, flat], ?_, fun p _ => rfl⟩
    simp only [writeChunks, flat]
    rw [hbuf]
    simp
  | cons c rest ih =>
    intro total fs buf hne hbuf hle
    have hc : c ≠ [] := hne c (by simp)
    have hcl : 0 < c.length := List.length_pos.mpr hc
    simp only [writeChunks, List.isEmpty_eq_true, if_neg hc]
    have hflat : (flat (c :: rest)).length = c.length + (flat rest).length := by
      show (c ++ flat rest).length = _
      simp
    have hnot : ¬ maxBytes < total + c.length := by
      rw [hflat] at hle
      omega
    rw [if_neg hnot]
    have hbuf' : fsAppend fs dest c dest = some (buf ++ c) := by
      simp [fsAppend, hbuf]
    obtain ⟨h1, h2, h3⟩ := ih (total + c.length) (fsAppend fs dest c) (buf ++ c)
      (fun x hx => hne x (by simp [hx])) hbuf' (by rw [hflat] at hle; omega)
    refine ⟨?_, ?_, ?_⟩
    · rw [h1, hflat]
      congr 1
      omega
    · rw [h2]
      show some (buf ++ c ++ flat rest) = some (buf ++ (c ++ flat rest))
      rw [List.append_assoc]
    · intro p hp
      rw [h3 p hp]
      simp [fsAppend, hp]

lemma writeChunks_error_char (dest : String) (maxBytes : Nat) :
    ∀ (chunks : List (List Nat)) (total : Nat) (fs : FS) (e : UploadError),
      (writeChunks dest maxBytes chunks total fs).1 = .error e →
      e = .payloadTooLarge maxBytes ∧
      (writeChunks dest maxBytes chunks total fs).2 dest = none ∧
      (∀ p, p ≠ dest → (writeChunks dest maxBytes chunks total fs).2 p = fs p) := by
  intro chunks
  induction chunks with
  | nil =>
    intro total fs e h
    simp [writeChunks] at h
  | cons c rest ih =>
    intro total fs e h
    by_cases hc : c = []
    · subst hc
      simp [writeChunks] at h
    · simp only [writeChunks, List.isEmpty_eq_true, if_neg hc] at h ⊢
      by_cases hover : maxBytes < total + c.length
      · rw [if_pos hover] at h ⊢
        refine ⟨?_, by simp [fsErase], fun p hp => by simp [fsErase, hp]⟩
        have := h
        simp at this
        exact this.symm
      · rw [if_neg hover] at h ⊢
        obtain ⟨h1, h2, h3⟩ := ih (total + c.length) (fsAppend fs dest c) e h
        refine ⟨h1, h2, fun p hp => ?_⟩
        rw [h3 p hp]
        simp [fsAppend, hp]

lemma writeChunks_err_of_gt (dest : String) (maxBytes : Nat) :
    ∀ (chunks : List (List Nat)) (total : Nat) (fs : FS),
      (∀ c ∈ chunks, c ≠ []) → total ≤ maxBytes →
      maxBytes < total + (flat chunks).length →
      (writeChunks dest maxBytes chunks total fs).1 =
        .error (.payloadTooLarge maxBytes) := by
  intro chunks
  induction chunks with
  | nil =>
    intro total fs _ hle hgt
    simp only [flat, List.length_nil, Nat.add_zero] at hgt
    omega
  | cons c rest ih =>
    intro total fs hne hle hgt
    have hc : c ≠ [] := hne c (by simp)
    simp only [writeChunks, List.isEmpty_eq_true, if_neg hc]
    by_cases hover : maxBytes < total + c.length
    · rw [if_pos hover]
    · rw [if_neg hover]
      have hflat : (flat (c :: rest)).length = c.length + (flat rest).length := by
        show (c ++ flat rest).length = _
        simp
      exact ih (total + c.length) (fsAppend fs dest c)
        (fun x hx => hne x (by simp [hx])) (by omega) (by rw [hflat] at hgt; omega)

lemma save_ok_char {root : List String} {data : List Nat} {chunkSize : Nat}
    {dest : String} {maxBytes : Nat} {fs : FS} (hn : chunkSize ≠ 0)
    (hok : strStartsWith dest (pathStr root) = true)
    (hle : data.length ≤ maxBytes) :
    (saveStreamingWithLimit root data chunkSize dest maxBytes fs).1 =
      .ok data.length ∧
    (saveStreamingWithLimit root data chunkSize dest maxBytes fs).2 dest =
      some data ∧
    (∀ p, p ≠ dest →
      (saveStreamingWithLimit root data chunkSize dest maxBytes fs).2 p = fs p) := by
  unfold saveStreamingWithLimit
  rw [if_neg (by rw [hok]; simp)]
  obtain ⟨h1, h2, h3⟩ := writeChunks_ok_of_le dest maxBytes (chunksOf chunkSize data)
    0 (fsSet fs dest []) []
    (chunksOf_ne_nil_mem hn data.length data (le_refl _))
    (by simp [fsSet])
    (by rw [chunksOf_flat hn data.length data (le_refl _)]; omega)
  rw [chunksOf_flat hn data.length data (le_refl _)] at h1 h2
  exact ⟨by simpa using h1, by simpa using h2,
    fun p hp => by rw [h3 p hp]; simp [fsSet, hp]⟩

lemma save_err_char {root : List String} {data : List Nat} {chunkSize : Nat}
    {dest : String} {maxBytes : Nat} {fs : FS} (hn : chunkSize ≠ 0)
    (hok : strStartsWith dest (pathStr root) = true)
    (hgt : maxBytes < data.length) :
    (saveStreamingWithLimit root data chunkSize dest maxBytes fs).1 =
      .error (.payloadTooLarge maxBytes) ∧
    (saveStreamingWithLimit root data chunkSize dest maxBytes fs).2 dest = none ∧
    (∀ p, p ≠ dest →
      (saveStreamingWithLimit root data chunkSize dest maxBytes fs).2 p = fs p) := by
  unfold saveStreamingWithLimit
  rw [if_neg (by rw [hok]; simp)]
  have herr := writeChunks_err_of_gt dest maxBytes (chunksOf chunkSize data) 0
    (fsSet fs dest [])
    (chunksOf_ne_nil_mem hn data.length data (le_refl _))
    (Nat.zero_le _)
    (by rw [chunksOf_flat hn data.length data (le_refl _)]; omega)
  obtain ⟨_, h2, h3⟩ := writeChunks_error_char dest maxBytes (chunksOf chunkSize data)
    0 (fsSet fs dest []) _ herr
  exact ⟨herr, h2, fun p hp => by rw [h3 p hp]; simp [fsSet, hp]⟩

/-! ## Claim C2: exact size boundary of the bounded writer -/

/-- C2: with a contained destination and positive chunk size, a stream of
exactly `maxBytes` bytes is written successfully with the full byte count
returned, while a stream of `maxBytes + 1` bytes fails with
`PayloadTooLarge` carrying the configured limit and leaves no file at the
destination. -/
theorem C2_size_boundary (root : List String) (data₁ data₂ : List Nat)
    (chunkSize : Nat) (dest : String) (maxBytes : Nat) (fs : FS)
    (hn : chunkSize ≠ 0) (hok : strStartsWith dest (pathStr root) = true)
    (h1 : data₁.length = maxBytes) (h2 : data₂.length = maxBytes + 1) :
    (saveStreamingWithLimit root data₁ chunkSize dest maxBytes fs).1 =
      .ok maxBytes ∧
    (saveStreamingWithLimit root data₂ chunkSize dest maxBytes fs).1 =
      .error (.payloadTooLarge maxBytes) ∧
    (saveStreamingWithLimit root data₂ chunkSize dest maxBytes fs).2 dest = none := by
  obtain ⟨ha, _, _⟩ :=
    @save_ok_char root data₁ chunkSize dest maxBytes fs hn hok (le_of_eq h1)
  obtain ⟨hb, hc, _⟩ :=
    @save_err_char root data₂ chunkSize dest maxBytes fs hn hok (by omega)
  exact ⟨by rw [ha, h1], hb, hc⟩

/-- Witness for C2: limit 3 with streams of 3 and 4 bytes, chunk size 2. -/
theorem C2_size_boundary_witness :
    ((2 : Nat) ≠ 0 ∧ strStartsWith "/r/f" (pathStr ["r"]) = true ∧
      ([1, 2, 3] : List Nat).length = 3 ∧ ([5, 6, 7, 8] : List Nat).length = 3 + 1) ∧
    ((saveStreamingWithLimit ["r"] [1, 2, 3] 2 "/r/f" 3 fsEmpty).1 = .ok 3 ∧
     (saveStreamingWithLimit ["r"] [5, 6, 7, 8] 2 "/r/f" 3 fsEmpty).1 =
       .error (.payloadTooLarge 3) ∧
     (saveStreamingWithLimit ["r"] [5, 6, 7, 8] 2 "/r/f" 3 fsEmpty).2 "/r/f" = none) :=
  ⟨⟨by decide, by decide, by decide, by decide⟩,
    C2_size_boundary ["r"] [1, 2, 3] [5, 6, 7, 8] 2 "/r/f" 3 fsEmpty
      (by decide) (by decide) (by decide) (by decide)⟩

/-! ## Claim C5: chunk-size independence of the writer's observable result -/

/-- C5: for any two positive chunk sizes the bounded writer produces the same
observable outcome on the same stream, and that outcome is success with the
full stream length when it fits the limit, else `PayloadTooLarge` with the
configured limit — including boundaries where the limit falls on a chunk
boundary or one byte short of the stream. -/
theorem C5_chunk_size_independence (root : List String) (data : List Nat)
    (c₁ c₂ : Nat) (dest : String) (maxBytes : Nat) (fs : FS)
    (h₁ : c₁ ≠ 0) (h₂ : c₂ ≠ 0)
    (hok : strStartsWith dest (pathStr root) = true) :
    (saveStreamingWithLimit root data c₁ dest maxBytes fs).1 =
      (saveStreamingWithLimit root data c₂ dest maxBytes fs).1 ∧
    (saveStreamingWithLimit root data c₁ dest maxBytes fs).1 =
      (if data.length ≤ maxBytes then .ok data.length
       else .error (.payloadTooLarge maxBytes)) := by
  have key : ∀ c, c ≠ 0 →
      (saveStreamingWithLimit root data c dest maxBytes fs).1 =
        (if data.length ≤ maxBytes then (Except.ok data.length : Except UploadError Nat)
         else .error (.payloadTooLarge maxBytes)) := by
    intro c hc
    by_cases hle : data.length ≤ maxBytes
    · rw [if_pos hle]
      exact (save_ok_char hc hok hle).1
    · rw [if_neg hle]
      exact (save_err_char hc hok (by omega)).1
  exact ⟨by rw [key c₁ h₁, key c₂ h₂], key c₁ h₁⟩

/-- Witness for C5: chunk sizes 1 and 3 on a 4-byte stream against limit 4
(the limit falls exactly on a chunk boundary for size 1, inside a chunk for
size 3). -/
theorem C5_chunk_size_independence_witness :
    ((1 : Nat) ≠ 0 ∧ (3 : Nat) ≠ 0 ∧
      strStartsWith "/r/g" (pathStr ["r"]) = true) ∧
    ((saveStreamingWithLimit ["r"] [9, 9, 9, 9] 1 "/r/g" 4 fsEmpty).1 =
       (saveStreamingWithLimit ["r"] [9, 9, 9, 9] 3 "/r/g" 4 fsEmpty).1 ∧
     (saveStreamingWithLimit ["r"] [9, 9, 9, 9] 1 "/r/g" 4 fsEmpty).1 =
       (if ([9, 9, 9, 9] : List Nat).length ≤ 4 then .ok ([9, 9, 9, 9] : List Nat).length
        else .error (.payloadTooLarge 4))) :=
  ⟨⟨by decide, by decide, by decide⟩,
    C5_chunk_size_independence ["r"] [9, 9, 9, 9] 1 3 "/r/g" 4 fsEmpty
      (by decide) (by decide) (by decide)⟩

/-! ## MIME-guess lemmas -/

lemma lookupMap_some_mem {m : List (String × String)} {k v : String}
    (h : lookupMap m k = some v) : (k, v) ∈ m := by
  induction m with
  | nil => simp [lookupMap] at h
  | cons kv rest ih =>
    obtain ⟨a, b⟩ := kv
    simp only [lookupMap] at h
    by_cases hk : k = a
    · rw [if_pos hk] at h
      injection h with hv
      subst hk
      subst hv
      simp
    · rw [if_neg hk] at h
      exact List.mem_cons_of_mem _ (ih h)

lemma typesTable_keys_lower :
    ∀ kv ∈ typesTable, (⟨toLowerList kv.1.data⟩ : String) = kv.1 := by decide

lemma types_match_lower {ext : List Char} {key mime : String}
    (hlow : (⟨toLowerList ext⟩ : String) = key)
    (hkey : lookupMap typesTable key = some mime) :
    (match lookupMap typesTable ⟨ext⟩ with
     | some t => some t
     | none => lookupMap typesTable ⟨toLowerList ext⟩) = some mime := by
  cases hl : lookupMap typesTable ⟨ext⟩ with
  | none =>
    show lookupMap typesTable ⟨toLowerList ext⟩ = some mime
    rw [hlow]
    exact hkey
  | some t =>
    have hmem := lookupMap_some_mem hl
    have hlower : (⟨toLowerList ext⟩ : String) = (⟨ext⟩ : String) :=
      typesTable_keys_lower _ hmem
    rw [hlower] at hlow
    rw [hlow, hkey] at hl
    injection hl with ht
    rw [ht]

lemma guessType_step {cs : List Char}
    (hsm : lookupMap suffixTable ⟨toLowerList (splitext cs).2⟩ = none)
    (hem : lookupMap encodingsTable ⟨toLowerList (splitext cs).2⟩ = none) :
    guessType ⟨cs⟩ =
      (match lookupMap typesTable ⟨(splitext cs).2⟩ with
       | some t => some t
       | none => lookupMap typesTable ⟨toLowerList (splitext cs).2⟩) := by
  show guessTypeAux 10 cs = _
  rw [show (10 : Nat) = 9 + 1 from rfl]
  simp only [guessTypeAux, hsm, hem, Option.isSome_none, Bool.false_eq_true, if_false]

/-- Key agreement lemma: on a sanitized filename with an allow-listed
extension whose stem is not all dots, the MIME guess over the whole filename
coincides with the lookup of the lowercased extension, and that lookup is an
allow-listed type. -/
lemma guessType_of_allowed {fn : String}
    (hall : fn.data.all allowedChar = true)
    (hext : hasAllowedExtension fn = true)
    (hstem : stemNotAllDots fn = true) :
    guessType fn = inferredFromExtension fn ∧
    ∃ m, inferredFromExtension fn = some m ∧
      ALLOWED_MIME_TYPES.contains m = true := by
  have hmem := List.all_eq_true.mp hall
  have hns : ∀ c ∈ fn.data, c ≠ '/' := fun c hc => allowedChar_ne_slash (hmem c hc)
  have hne0 : fn ≠ "" := by rintro rfl; exact absurd hext (by decide)
  have hne1 : fn ≠ "." := by rintro rfl; exact absurd hext (by decide)
  have hname : pathName fn = fn := pathName_of_clean hne0 hne1 hns
  have hsep : lastIdxOf '/' fn.data = none := lastIdxOf_none hns
  cases hdot : lastIdxOf '.' fn.data with
  | none =>
    exfalso
    have hsuf : pathSuffix fn = "" := by
      unfold pathSuffix
      rw [hname, hdot]
    unfold hasAllowedExtension at hext
    rw [hsuf] at hext
    exact absurd hext (by decide)
  | some d =>
    have hstem' : (fn.data.take d).any (fun c => c ≠ '.') = true := by
      simp only [stemNotAllDots, hdot] at hstem
      exact hstem
    have hsufcases : pathSuffix fn = ⟨fn.data.drop d⟩ ∨ pathSuffix fn = "" := by
      simp only [pathSuffix, hname, hdot]
      split
      · exact Or.inl rfl
      · exact Or.inr rfl
    rcases hsufcases with hsuf | hsuf
    · have hsx : splitext fn.data = (fn.data.take d, fn.data.drop d) := by
        simp only [splitext, hdot, hsep]
        split
        · rfl
        · rename_i hcf
          exfalso
          apply hcf
          rw [List.drop_zero, Nat.sub_zero, Bool.and_eq_true]
          exact ⟨by simp, hstem'⟩
      have hextdata : (pathSuffix fn).data = fn.data.drop d := by rw [hsuf]
      unfold hasAllowedExtension at hext
      rw [hextdata] at hext
      simp only [ALLOWED_EXTENSIONS, List.contains_cons, List.contains_nil,
        Bool.or_eq_true, beq_iff_eq] at hext
      have main : ∀ key mime : String,
          (⟨toLowerList (fn.data.drop d)⟩ : String) = key →
          lookupMap suffixTable key = none →
          lookupMap encodingsTable key = none →
          lookupMap typesTable key = some mime →
          ALLOWED_MIME_TYPES.contains mime = true →
          guessType fn = inferredFromExtension fn ∧
          ∃ m, inferredFromExtension fn = some m ∧
            ALLOWED_MIME_TYPES.contains m = true := by
        intro key mime hlow hsm hem hkey hmime
        have hinf : inferredFromExtension fn = some mime := by
          unfold inferredFromExtension
          rw [hextdata, hlow]
          exact hkey
        have hgt : guessType fn = some mime := by
          have hstep := @guessType_step fn.data
            (by rw [hsx]; show lookupMap suffixTable ⟨toLowerList (fn.data.drop d)⟩ = none;
                rw [hlow]; exact hsm)
            (by rw [hsx]; show lookupMap encodingsTable ⟨toLowerList (fn.data.drop d)⟩ = none;
                rw [hlow]; exact hem)
          have hfn : (⟨fn.data⟩ : String) = fn := rfl
          rw [hfn] at hstep
          rw [hstep, hsx]
          exact types_match_lower hlow hkey
        exact ⟨by rw [hgt, hinf], ⟨mime, hinf, hmime⟩⟩
      rcases hext with h4 | h4 | h4 | h4 | h4
      · exact main ".jpg" "image/jpeg" h4 (by decide) (by decide) (by decide) (by decide)
      · exact main ".jpeg" "image/jpeg" h4 (by decide) (by decide) (by decide) (by decide)
      · exact main ".png" "image/png" h4 (by decide) (by decide) (by decide) (by decide)
      · exact main ".pdf" "application/pdf" h4 (by decide) (by decide) (by decide) (by decide)
      · exact absurd h4 (by simp)
    · exfalso
      unfold hasAllowedExtension at hext
      rw [hsuf] at hext
      exact absurd hext (by decide)

/-! ## Claims C10 and C4: the type/extension validator -/

/-- C10 counterexample: `..jpg` passes the extension check (its `Path.suffix`
is `.jpg`), its characters are sanitizer-clean, yet the MIME check rejects a
non-allow-listed declared type — the guesser treats the all-dots stem as
having no extension and infers nothing — so the `UnsupportedContentType`
branch is reachable after the extension check passes. -/
theorem C10_counterexample :
    hasAllowedExtension "..jpg" = true ∧
    ("..jpg" : String).data.all allowedChar = true ∧
    isAllowedMime (some "text/plain") "..jpg" = false ∧
    validateUpload (some "text/plain") "..jpg" = .error .unsupportedContentType := by
  decide

/-- C10 (amended): under the extension-allow precondition the content-type
check never rejects, for every declared content type, provided additionally
that not every character of the sanitized name before its last dot is a dot;
names such as `..jpg` are the sole exception, for which the guesser infers no
type and a non-allow-listed declared type is rejected. -/
theorem C10_mime_after_extension (ct : Option String) (fn : String)
    (hall : fn.data.all allowedChar = true)
    (hext : hasAllowedExtension fn = true)
    (hstem : stemNotAllDots fn = true) :
    isAllowedMime ct fn = true := by
  obtain ⟨hg, m, hinf, hm⟩ := guessType_of_allowed hall hext hstem
  unfold isAllowedMime
  rw [hg, hinf]
  have h2 : (match some m with
             | some g => ALLOWED_MIME_TYPES.contains g
             | none => false) = ALLOWED_MIME_TYPES.contains m := rfl
  rw [h2, hm, Bool.or_true]

/-- Witness for C10 (amended): an uppercase extension and an arbitrary
attacker-chosen declared content type are still accepted. -/
theorem C10_mime_after_extension_witness :
    (("a.PDF" : String).data.all allowedChar = true ∧
     hasAllowedExtension "a.PDF" = true ∧ stemNotAllDots "a.PDF" = true) ∧
    isAllowedMime (some "application/x-evil") "a.PDF" = true :=
  ⟨⟨by decide, by decide, by decide⟩,
    C10_mime_after_extension (some "application/x-evil") "a.PDF"
      (by decide) (by decide) (by decide)⟩

/-- C4 counterexample: on `..png` with declared type `text/plain`, the
"content type inferred from the extension" (`.png ↦ image/png`) is
allow-listed, so the claim's validator accepts, but the code's validator
infers from the whole filename (`splitext` grants no extension to an all-dots
stem) and rejects with `UnsupportedContentType`. -/
theorem C4_counterexample :
    validateUploadSpec (some "text/plain") "..png" = .ok () ∧
    validateUpload (some "text/plain") "..png" = .error .unsupportedContentType := by
  decide

/-- C4 (amended): the validator rejects `UnsupportedExtension` exactly when
the lowercased extension is outside the allow-list; and whenever some
character of the sanitized name before its last dot is not a dot, it behaves
exactly as the specification's description (accept an allow-listed declared
type, else accept exactly when the extension-inferred type is allow-listed,
else reject `UnsupportedContentType`).  For all-dots stems such as `..png`
the code infers no type and additionally rejects. -/
theorem C4_validator_characterization (ct : Option String) (fn : String)
    (hall : fn.data.all allowedChar = true) :
    (validateUpload ct fn = .error .unsupportedExtension ↔
      hasAllowedExtension fn = false) ∧
    (stemNotAllDots fn = true → validateUpload ct fn = validateUploadSpec ct fn) := by
  constructor
  · constructor
    · intro h
      by_contra hne
      have hext : hasAllowedExtension fn = true := by
        cases hc : hasAllowedExtension fn with
        | true => rfl
        | false => exact absurd hc hne
      have hne2 : ¬ (hasAllowedExtension fn = false) := by rw [hext]; simp
      unfold validateUpload at h
      rw [if_neg hne2] at h
      split at h
      · exact absurd h (by decide)
      · exact absurd h (by decide)
    · intro h
      unfold validateUpload
      rw [if_pos h]
  · intro hstem
    by_cases hext : hasAllowedExtension fn = true
    · obtain ⟨hg, m, hinf, hm⟩ := guessType_of_allowed hall hext hstem
      have hm' : m ∈ ALLOWED_MIME_TYPES := by simpa using hm
      have hne2 : ¬ (hasAllowedExtension fn = false) := by rw [hext]; simp
      unfold validateUpload validateUploadSpec isAllowedMime
      rw [if_neg hne2, if_neg hne2, hg, hinf]
      cases ct with
      | none => simp [hm, hm']
      | some s =>
        by_cases hd : s ∈ ALLOWED_MIME_TYPES
        · simp [hd, hm, hm']
        · simp [hd, hm, hm']
    · have hextf : hasAllowedExtension fn = false := by
        cases hc : hasAllowedExtension fn with
        | true => exact absurd hc hext
        | false => rfl
      unfold validateUpload validateUploadSpec
      rw [if_pos hextf, if_pos hextf]

/-- Witness for C4 (amended) at the spec's Scenario A name `report.pdf`. -/
theorem C4_validator_characterization_witness :
    (("report.pdf" : String).data.all allowedChar = true) ∧
    ((validateUpload (some "application/pdf") "report.pdf" =
        .error .unsupportedExtension ↔
      hasAllowedExtension "report.pdf" = false) ∧
     (stemNotAllDots "report.pdf" = true →
      validateUpload (some "application/pdf") "report.pdf" =
        validateUploadSpec (some "application/pdf") "report.pdf")) :=
  ⟨by decide,
    C4_validator_characterization (some "application/pdf") "report.pdf" (by decide)⟩

/-! ## Upload-operation lemmas -/

/-- A missing or empty client filename reduces the single-upload pipeline to
the default `upload.bin`, which the extension check rejects at once. -/
lemma uploadSingle_default_bin (root : List String) (contentType : Option String)
    (data : List Nat) (token hex : String) (chunkSize maxBytes : Nat) (fs : FS) :
    uploadSingle root none contentType data token hex chunkSize maxBytes fs =
      (.error .unsupportedExtension, fs) ∧
    uploadSingle root (some "") contentType data token hex chunkSize maxBytes fs =
      (.error .unsupportedExtension, fs) :=
  ⟨rfl, rfl⟩

lemma save_error_pointwise {root : List String} {data : List Nat}
    {chunkSize : Nat} {dest : String} {maxBytes : Nat} {fs : FS} {e : UploadError}
    (h : (saveStreamingWithLimit root data chunkSize dest maxBytes fs).1 = .error e)
    (p : String) :
    (saveStreamingWithLimit root data chunkSize dest maxBytes fs).2 p = fs p ∨
    (saveStreamingWithLimit root data chunkSize dest maxBytes fs).2 p = none := by
  unfold saveStreamingWithLimit at h ⊢
  split at h
  · rename_i hbad
    rw [if_pos hbad]
    exact Or.inl rfl
  · rename_i hgood
    rw [if_neg hgood]
    obtain ⟨_, h2, h3⟩ := writeChunks_error_char dest maxBytes
      (chunksOf chunkSize data) 0 (fsSet fs dest []) e h
    by_cases hp : p = dest
    · subst hp
      exact Or.inr h2
    · rw [h3 p hp]
      exact Or.inl (by simp [fsSet, hp])

lemma uploadSingle_error_pointwise (root : List String) (fn ct : Option String)
    (data : List Nat) (token hex : String) (chunkSize maxBytes : Nat) (fs : FS)
    (e : UploadError) (p : String)
    (h : (uploadSingle root fn ct data token hex chunkSize maxBytes fs).1 = .error e) :
    (uploadSingle root fn ct data token hex chunkSize maxBytes fs).2 p = fs p ∨
    (uploadSingle root fn ct data token hex chunkSize maxBytes fs).2 p = none := by
  rcases fn with _ | s
  · rw [(uploadSingle_default_bin root ct data token hex chunkSize maxBytes fs).1]
    exact Or.inl rfl
  · by_cases hs : s = ""
    · subst hs
      rw [(uploadSingle_default_bin root ct data token hex chunkSize maxBytes fs).2]
      exact Or.inl rfl
    · simp only [uploadSingle] at h ⊢
      rw [if_neg hs] at h ⊢
      split at h
      · rename_i hc
        rw [if_pos hc]
        exact Or.inl rfl
      · rename_i hc
        rw [if_neg hc]
        split at h
        · rename_i hc2
          rw [if_pos hc2]
          exact Or.inl rfl
        · rename_i hc2
          rw [if_neg hc2]
          revert h
          cases hres : (saveStreamingWithLimit root data chunkSize
              (uniqueDestination root (sanitizeFilename s token) hex)
              maxBytes fs).1 with
          | error e2 =>
            intro _
            show (saveStreamingWithLimit root data chunkSize
                (uniqueDestination root (sanitizeFilename s token) hex)
                maxBytes fs).2 p = fs p ∨
              (saveStreamingWithLimit root data chunkSize
                (uniqueDestination root (sanitizeFilename s token) hex)
                maxBytes fs).2 p = none
            exact save_error_pointwise hres p
          | ok size =>
            intro h
            simp at h

/-! ## Claim C9: uploads with missing filenames can never succeed -/

/-- C9: a single-file upload with a missing or empty client filename defaults
to `upload.bin`, whose `.bin` extension is outside the allow-list, so the
request is rejected with `UnsupportedExtension` before any byte is written
(the file system is returned untouched); no such upload can succeed. -/
theorem C9_missing_filename_rejected (root : List String)
    (filename contentType : Option String) (data : List Nat) (token hex : String)
    (chunkSize maxBytes : Nat) (fs : FS)
    (h : filename = none ∨ filename = some "") :
    uploadSingle root filename contentType data token hex chunkSize maxBytes fs =
      (.error .unsupportedExtension, fs) := by
  rcases h with rfl | rfl
  · exact (uploadSingle_default_bin root contentType data token hex
      chunkSize maxBytes fs).1
  · exact (uploadSingle_default_bin root contentType data token hex
      chunkSize maxBytes fs).2

/-- Witness for C9: a missing filename with an allow-listed declared type and
non-empty stream is still rejected. -/
theorem C9_missing_filename_rejected_witness :
    ((none : Option String) = none ∨ (none : Option String) = some "") ∧
    uploadSingle ["srv", "uploads"] none (some "image/png") [1, 2, 3] hex32 hex32
        4 10 fsEmpty = (.error .unsupportedExtension, fsEmpty) :=
  ⟨Or.inl rfl,
    C9_missing_filename_rejected ["srv", "uploads"] none (some "image/png")
      [1, 2, 3] hex32 hex32 4 10 fsEmpty (Or.inl rfl)⟩

seal uploadSingle uploadMultipleGo in
/-- Unfold a non-empty batch to the processing loop. -/
lemma uploadMultiple_cons_eq (root : List String)
    (f : Option String × Option String × List Nat)
    (rest : List (Option String × Option String × List Nat))
    (tok hx : Nat → String) (chunkSize maxBytes : Nat) (fs : FS) :
    uploadMultiple root (f :: rest) tok hx chunkSize maxBytes fs =
      uploadMultipleGo root tok hx chunkSize maxBytes (f :: rest) 0 fs [] := by
  unfold uploadMultiple
  rw [if_neg (by simp)]

seal uploadSingle in
/-- Step equation of the processing loop. -/
lemma uploadMultipleGo_cons (root : List String) (tok hx : Nat → String)
    (chunkSize maxBytes : Nat) (fn ct : Option String) (d : List Nat)
    (rest : List (Option String × Option String × List Nat)) (k : Nat) (fs : FS)
    (acc : List FileMeta) :
    uploadMultipleGo root tok hx chunkSize maxBytes ((fn, ct, d) :: rest) k fs acc =
      (match (uploadSingle root fn ct d (tok k) (hx k) chunkSize maxBytes fs).1 with
       | .error e =>
         ((.error e : Except UploadError (List FileMeta)),
           (uploadSingle root fn ct d (tok k) (hx k) chunkSize maxBytes fs).2)
       | .ok meta =>
         uploadMultipleGo root tok hx chunkSize maxBytes rest (k + 1)
           (uploadSingle root fn ct d (tok k) (hx k) chunkSize maxBytes fs).2
           (meta :: acc)) :=
  rfl

seal uploadSingle in
/-- Exhaustion equation of the processing loop. -/
lemma uploadMultipleGo_nil (root : List String) (tok hx : Nat → String)
    (chunkSize maxBytes k : Nat) (fs : FS) (acc : List FileMeta) :
    uploadMultipleGo root tok hx chunkSize maxBytes [] k fs acc =
      (.ok acc.reverse, fs) :=
  rfl

/-! ## Claim C3: cleanup on failed uploads -/

/-- C3 counterexample: a two-file batch whose first file is valid and fully
written and whose second file fails extension validation makes the whole
`upload_multiple` request fail (no record is returned), yet the first file's
fully written bytes remain in storage as an orphaned artifact of the failed
invocation — the validation failure is surfaced after bytes were written. -/
theorem C3_counterexample :
    (uploadMultiple ["srv", "uploads"]
        [(some "a.png", some "image/png", [1, 2, 3]), (some "evil.exe", none, [])]
        (fun _ => hex32) (fun _ => hex32) 4 10 fsEmpty).1 =
      .error .unsupportedExtension ∧
    (uploadMultiple ["srv", "uploads"]
        [(some "a.png", some "image/png", [1, 2, 3]), (some "evil.exe", none, [])]
        (fun _ => hex32) (fun _ => hex32) 4 10 fsEmpty).2
      ("/srv/uploads/a__" ++ hex32 ++ ".png") = some [1, 2, 3] ∧
    fsEmpty ("/srv/uploads/a__" ++ hex32 ++ ".png") = none := by
  decide

seal uploadSingle in
/-- C3 (amended): for the single-file upload operation — and hence per file,
including single-file batches of the multiple-file operation — any invocation
ending in a validation or size-limit failure produces no record (the result is
an error) and leaves every storage path either unchanged or absent, so no
partial artifact of the invocation remains.  For batches of two or more files
the guarantee is only per file: files earlier in the batch that completed
before the failure stay in storage without any record being returned. -/
theorem C3_failure_cleanup (root : List String) (fn ct : Option String)
    (data : List Nat) (token hex : String) (tokf hxf : Nat → String)
    (chunkSize maxBytes : Nat) (fs : FS) (e e' : UploadError) (p q : String) :
    ((uploadSingle root fn ct data token hex chunkSize maxBytes fs).1 = .error e →
      (uploadSingle root fn ct data token hex chunkSize maxBytes fs).2 p = fs p ∨
      (uploadSingle root fn ct data token hex chunkSize maxBytes fs).2 p = none) ∧
    ((uploadMultiple root [(fn, ct, data)] tokf hxf chunkSize maxBytes fs).1 =
        .error e' →
      (uploadMultiple root [(fn, ct, data)] tokf hxf chunkSize maxBytes fs).2 q =
        fs q ∨
      (uploadMultiple root [(fn, ct, data)] tokf hxf chunkSize maxBytes fs).2 q =
        none) := by
  constructor
  · exact uploadSingle_error_pointwise root fn ct data token hex
      chunkSize maxBytes fs e p
  · intro h
    rw [uploadMultiple_cons_eq, uploadMultipleGo_cons] at h ⊢
    revert h
    cases hres : (uploadSingle root fn ct data (tokf 0) (hxf 0)
        chunkSize maxBytes fs).1 with
    | error e2 =>
      intro _
      show (uploadSingle root fn ct data (tokf 0) (hxf 0)
          chunkSize maxBytes fs).2 q = fs q ∨
        (uploadSingle root fn ct data (tokf 0) (hxf 0)
          chunkSize maxBytes fs).2 q = none
      exact uploadSingle_error_pointwise root fn ct data (tokf 0) (hxf 0)
        chunkSize maxBytes fs e2 q hres
    | ok meta =>
      intro h
      have h2 : (uploadMultipleGo root tokf hxf chunkSize maxBytes [] (0 + 1)
          (uploadSingle root fn ct data (tokf 0) (hxf 0)
            chunkSize maxBytes fs).2 [meta]).1 = .error e' := h
      rw [uploadMultipleGo_nil] at h2
      simp at h2

/-- Witness for C3 (amended): an oversized single-file upload errors and its
destination path holds nothing afterwards. -/
theorem C3_failure_cleanup_witness :
    ((uploadSingle ["srv", "uploads"] (some "a.png") (some "image/png")
        [1, 2, 3, 4, 5] hex32 hex32 2 4 fsEmpty).1 = .error (.payloadTooLarge 4) →
      (uploadSingle ["srv", "uploads"] (some "a.png") (some "image/png")
        [1, 2, 3, 4, 5] hex32 hex32 2 4 fsEmpty).2
        ("/srv/uploads/a__" ++ hex32 ++ ".png") =
        fsEmpty ("/srv/uploads/a__" ++ hex32 ++ ".png") ∨
      (uploadSingle ["srv", "uploads"] (some "a.png") (some "image/png")
        [1, 2, 3, 4, 5] hex32 hex32 2 4 fsEmpty).2
        ("/srv/uploads/a__" ++ hex32 ++ ".png") = none) ∧
    ((uploadMultiple ["srv", "uploads"] [(some "a.png", some "image/png", [1, 2, 3, 4, 5])]
        (fun _ => hex32) (fun _ => hex32) 2 4 fsEmpty).1 =
        .error (.payloadTooLarge 4) →
      (uploadMultiple ["srv", "uploads"] [(some "a.png", some "image/png", [1, 2, 3, 4, 5])]
        (fun _ => hex32) (fun _ => hex32) 2 4 fsEmpty).2
        ("/srv/uploads/a__" ++ hex32 ++ ".png") =
        fsEmpty ("/srv/uploads/a__" ++ hex32 ++ ".png") ∨
      (uploadMultiple ["srv", "uploads"] [(some "a.png", some "image/png", [1, 2, 3, 4, 5])]
        (fun _ => hex32) (fun _ => hex32) 2 4 fsEmpty).2
        ("/srv/uploads/a__" ++ hex32 ++ ".png") = none) :=
  C3_failure_cleanup ["srv", "uploads"] (some "a.png") (some "image/png")
    [1, 2, 3, 4, 5] hex32 hex32 (fun _ => hex32) (fun _ => hex32) 2 4 fsEmpty
    (.payloadTooLarge 4) (.payloadTooLarge 4)
    ("/srv/uploads/a__" ++ hex32 ++ ".png") ("/srv/uploads/a__" ++ hex32 ++ ".png")

/-! ## Claim C6: upload/retrieve round trip -/

/-- The basename of a rendered path `root ++ [u]` is `u`, for a clean final
component. -/
lemma pathName_root_append {root : List String} {u : String}
    (hu0 : u ≠ "") (hu1 : u ≠ ".") (hns : ∀ c ∈ u.data, c ≠ '/') :
    pathName (pathStr (root ++ [u])) = u := by
  unfold pathName
  rw [@pathStr_data_of_ne_nil (root ++ [u]) (by simp), rawChars_concat,
    splitOnChar_append_sep, splitOnChar_no_sep hns, List.map_append,
    List.filter_append]
  have hcast : (⟨u.data⟩ : String) = u := rfl
  show ((((splitOnChar '/' (rawChars root)).map
      (fun cs => (⟨cs⟩ : String))).filter (fun c => c ≠ "" && c ≠ ".") ++
      ([u] : List String).filter (fun c => c ≠ "" && c ≠ ".")).getLast?).getD "" = u
  rw [List.filter_cons_of_pos (by simp [hu0, hu1])]
  show ((_ ++ [u]).getLast?).getD "" = u
  rw [List.getLast?_concat]
  rfl

/-- C6: a successful single upload, under a well-formed root and hex draws,
returns a record whose stored name passes the retrieval guard's
re-sanitization unchanged, whose recorded size is the full stream length, and
whose immediate retrieval from the resulting storage state yields the uploaded
bytes verbatim (with the guessed media type). -/
theorem C6_roundtrip (root : List String) (fn ct : Option String) (data : List Nat)
    (token hex tok2 : String) (chunkSize maxBytes : Nat) (fs : FS) (meta : FileMeta)
    (hroot : rootOk root = true) (htok : hexOk token = true) (hhex : hexOk hex = true)
    (hn : chunkSize ≠ 0)
    (h : (uploadSingle root fn ct data token hex chunkSize maxBytes fs).1 = .ok meta) :
    sanitizeFilename meta.filename tok2 = meta.filename ∧
    meta.sizeBytes = data.length ∧
    getFile root meta.filename tok2
      ((uploadSingle root fn ct data token hex chunkSize maxBytes fs).2) =
      .ok (data, guessType meta.filename) := by
  rcases fn with _ | s
  · rw [(uploadSingle_default_bin root ct data token hex chunkSize maxBytes fs).1] at h
    simp at h
  · by_cases hs : s = ""
    · subst hs
      rw [(uploadSingle_default_bin root ct data token hex chunkSize maxBytes fs).2] at h
      simp at h
    · obtain ⟨hne, hall⟩ := sanitizeFilename_shape s htok
      obtain ⟨hu0, hu1, hu2⟩ := uniqueName_ne_special (sanitizeFilename s token) hex
      have huall := uniqueName_allowed (sanitizeFilename s token) hex hall hhex
      have huns : ∀ c ∈ (uniqueName (sanitizeFilename s token) hex).data, c ≠ '/' :=
        fun c hc => allowedChar_ne_slash (List.all_eq_true.mp huall c hc)
      have hju := @joinResolve_single root
        (uniqueName (sanitizeFilename s token) hex) hu0 huns
      have hjr : joinResolve root (uniqueName (sanitizeFilename s token) hex) =
          root ++ [uniqueName (sanitizeFilename s token) hex] := by
        rw [hju, if_neg hu1, if_neg hu2]
      have hdest : uniqueDestination root (sanitizeFilename s token) hex =
          pathStr (root ++ [uniqueName (sanitizeFilename s token) hex]) := by
        unfold uniqueDestination
        rw [hjr]
      have hstarts : strStartsWith (uniqueDestination root (sanitizeFilename s token) hex)
          (pathStr root) = true := by
        rw [hdest]
        exact strStartsWith_append_root root _
      have hpn : pathName (uniqueDestination root (sanitizeFilename s token) hex) =
          uniqueName (sanitizeFilename s token) hex := by
        rw [hdest]
        exact pathName_root_append hu0 hu1 huns
      simp only [uploadSingle] at h ⊢
      rw [if_neg hs] at h ⊢
      split at h
      · simp at h
      · rename_i hext'
        rw [if_neg hext']
        split at h
        · simp at h
        · rename_i hmime'
          rw [if_neg hmime']
          revert h
          cases hres : (saveStreamingWithLimit root data chunkSize
              (uniqueDestination root (sanitizeFilename s token) hex)
              maxBytes fs).1 with
          | error e2 =>
            intro h
            simp at h
          | ok size =>
            intro h
            have hle : data.length ≤ maxBytes := by
              by_contra hgt
              have herr := (@save_err_char root data chunkSize
                (uniqueDestination root (sanitizeFilename s token) hex)
                maxBytes fs hn hstarts (by omega)).1
              rw [hres] at herr
              simp at herr
            obtain ⟨hok1, hok2, _⟩ := @save_ok_char root data chunkSize
              (uniqueDestination root (sanitizeFilename s token) hex)
              maxBytes fs hn hstarts hle
            have hsize : size = data.length := by
              rw [hres] at hok1
              exact Except.ok.inj hok1
            have hmeta := Except.ok.inj h
            have hproj1 := congrArg FileMeta.filename hmeta
            have hproj2 := congrArg FileMeta.sizeBytes hmeta
            have hfn : meta.filename = uniqueName (sanitizeFilename s token) hex := by
              rw [← hproj1]
              with_reducible exact hpn
            have hsb : meta.sizeBytes = data.length := by
              rw [← hproj2]
              exact hsize
            have hget : getFile root (uniqueName (sanitizeFilename s token) hex) tok2
                ((saveStreamingWithLimit root data chunkSize
                  (uniqueDestination root (sanitizeFilename s token) hex)
                  maxBytes fs).2) =
                .ok (data, guessType (uniqueName (sanitizeFilename s token) hex)) := by
              simp only [getFile]
              rw [sanitizeFilename_of_clean hu0 hu1 huall tok2, hjr]
              rw [if_neg (by rw [strStartsWith_append_root root _]; simp)]
              rw [← hdest, hok2, hpn]
            refine ⟨?_, hsb, ?_⟩
            · rw [hfn]
              exact sanitizeFilename_of_clean hu0 hu1 huall tok2
            · rw [hfn]
              exact hget

/-- Witness for C6: uploading three bytes as `a.png` and retrieving them by
the returned stored name. -/
theorem C6_roundtrip_witness :
    (rootOk ["srv", "uploads"] = true ∧ hexOk hex32 = true ∧ (4 : Nat) ≠ 0 ∧
     (uploadSingle ["srv", "uploads"] (some "a.png") (some "image/png") [1, 2, 3]
        hex32 hex32 4 10 fsEmpty).1 = .ok metaW) ∧
    (sanitizeFilename metaW.filename hex32 = metaW.filename ∧
     metaW.sizeBytes = ([1, 2, 3] : List Nat).length ∧
     getFile ["srv", "uploads"] metaW.filename hex32
       ((uploadSingle ["srv", "uploads"] (some "a.png") (some "image/png") [1, 2, 3]
          hex32 hex32 4 10 fsEmpty).2) = .ok ([1, 2, 3], guessType metaW.filename)) :=
  ⟨⟨by decide, by decide, by decide, by decide⟩,
    C6_roundtrip ["srv", "uploads"] (some "a.png") (some "image/png") [1, 2, 3]
      hex32 hex32 hex32 4 10 fsEmpty metaW (by decide) (by decide) (by decide)
      (by decide) (by decide)⟩

end FileUploads
